import Mathlib

/-!
Verification of the jupyter-next notebook document model.

A shallow embedding of the notebook data model and its operations from
`lib/cell-model.js`, `lib/notebook-document.js`, `lib/kernel-manager.js`,
the cell undo manager, and the editor's undo/redo application, together
with proofs of the specified properties.

Modelling conventions:
* JavaScript arrays become `List`, in-place mutation becomes functional update.
* Cell indices are modelled as `Nat` (the callers compute them from lengths
  and selections, which are non-negative).
* `Array.prototype.splice` clamps an out-of-range start index to the array
  length; insertions are therefore modelled with an explicit clamp.
* Opaque uuid strings are modelled as `Nat` identifiers (never compared by
  any verified property); fresh uuids are modelled by a constant.
* Strings that undergo line splitting (`source`) are modelled as `List Char`
  so that `split("\n")` / `join("")` are provable; other strings stay `String`.
-/

namespace JupyterNext

/-- A notebook output entry (tagged union from the spec's data model and
`cell-model.js` / `kernel-manager.js`). -/
inductive Output where
  | stream (name : String) (text : String)
  | executeResult (data : List (String × String))
  | displayData (data : List (String × String))
  | error (ename : String) (evalue : String) (traceback : List String)
  deriving DecidableEq

/-- Cell type: `"code" | "markdown" | "raw"`. -/
inductive CellType where
  | code
  | markdown
  | raw
  deriving DecidableEq

/-- A JavaScript error value as consumed by `executeCell`'s catch branch:
`error.name`, `error.message`, `error.stack`, and an optional
`error.traceback`. -/
structure JsError where
  name : String
  message : String
  stack : String
  traceback : Option (List String)
  deriving DecidableEq

/-- The synthetic `error` output appended by `NotebookDocument.executeCell`'s
catch branch: `{output_type: "error", ename: error.name || "Error",
evalue: error.message, traceback: error.traceback || [error.stack || error.message]}`. -/
def errorOutputOf (e : JsError) : Output :=
  .error (if e.name = "" then "Error" else e.name)
    e.message
    (match e.traceback with
     | some t => t
     | none => [if e.stack = "" then e.message else e.stack])

/-- Embeds `CellModel` from `cell-model.js` (fields relevant to document behaviour). -/
structure Cell where
  id : Nat
  type : CellType
  source : List Char
  outputs : List Output
  executionCount : Option Int
  metadata : List (String × String)
  running : Bool := false
  status : String := "idle"
  outputVisible : Bool := true
  inputVisible : Bool := true
  executionTime : Option Nat := none
  deriving DecidableEq

/-- Modelled from the spec: hydrogen-next's shared `normalizeOutput` (the
repository delegates to it; the function itself is not under `src/`).  It
"defends against missing fields"; on the already well-formed `Output` type it
is the identity. -/
def normalizeOutput (o : Output) : Output := o

/-- Modelled from the spec: hydrogen-next's shared `reduceOutputs` (the
repository delegates to it from `CellModel.addOutput`; the function itself is
not under `src/`).  Spec §4.2: "if the last existing output and the incoming
one are both `stream` type with equal `name`, concatenate text in place;
otherwise append as a new output entry." -/
def reduceOutputs (outputs : List Output) (incoming : Output) : List Output :=
  match outputs.getLast?, incoming with
  | some (.stream lastName lastText), .stream newName newText =>
    if lastName = newName then
      outputs.dropLast ++ [.stream lastName (lastText ++ newText)]
    else
      outputs ++ [incoming]
  | _, _ => outputs ++ [incoming]

/-- Modelled from the spec: hydrogen-next's shared `outputToNotebookFormat`
(not under `src/`).  Spec §6: load/save "must round-trip it losslessly aside
from intentional normalization (line-splitting rule in §4.2)", so on the
already notebook-formatted `Output` type it is the identity. -/
def outputToNotebookFormat (o : Output) : Output := o

namespace Cell

/-- Embeds `CellModel.setType`: the membership test `["code","markdown","raw"]`
always succeeds on the `CellType` enumeration; a non-code type clears
outputs and the execution count. -/
def setType (c : Cell) (t : CellType) : Cell :=
  let c := { c with type := t }
  if t ≠ .code then { c with outputs := [], executionCount := none } else c

/-- Embeds `CellModel.setRunning` (the shared execution-time tracker side effects are
out of the verified model; `executionTime` is reset while running). -/
def setRunning (c : Cell) (running : Bool) : Cell :=
  { c with
    running := running
    status := if running then "running" else "idle"
    executionTime := if running then none else c.executionTime }

/-- Embeds `CellModel.setExecutionCount`. -/
def setExecutionCount (c : Cell) (count : Option Int) : Cell :=
  { c with executionCount := count }

/-- Embeds `CellModel.addOutput`: normalize, then merge via the shared reducer. -/
def addOutput (c : Cell) (o : Output) : Cell :=
  { c with outputs := reduceOutputs c.outputs (normalizeOutput o) }

/-- Embeds `CellModel.clearOutputs`. -/
def clearOutputs (c : Cell) : Cell :=
  { c with outputs := [], executionCount := none, executionTime := none, status := "idle" }

end Cell

/-! ## Source line splitting (`CellModel.toJSON`)

`this.source.split("\n").map((line, i, arr) => i < arr.length - 1 ? line + "\n" : line).filter((line) => line !== "")`
-/

/-- Prepend a character to the first part of a split (helper for
`splitLines`). -/
def consHead (c : Char) : List (List Char) → List (List Char)
  | [] => [[c]]
  | p :: ps => (c :: p) :: ps

/-- JavaScript `source.split("\n")` on the character-list model: the parts
between newline separators, in order (always at least one part). -/
def splitLines : List Char → List (List Char)
  | [] => [[]]
  | c :: cs => if c = '\n' then [] :: splitLines cs else consHead c (splitLines cs)

/-- The `.map((line, i, arr) => i < arr.length - 1 ? line + "\n" : line)`
step: re-attach a trailing newline to every part except the last. -/
def addNewlines : List (List Char) → List (List Char)
  | [] => []
  | [p] => [p]
  | p :: ps => (p ++ ['\n']) :: addNewlines ps

/-- The serialized `source` fragments produced by `CellModel.toJSON`:
split on newlines, keep each fragment's trailing newline except for the last
fragment, and drop empty fragments. -/
def sourceFragments (s : List Char) : List (List Char) :=
  (addNewlines (splitLines s)).filter (fun line => line ≠ [])

/-- Embeds `NotebookDocument.load`'s `cellData.source.join("")`. -/
def joinFragments (parts : List (List Char)) : List Char :=
  parts.foldr (fun p acc => p ++ acc) []

/-- The storage shape of a cell produced by `CellModel.toJSON`
(`execution_count` and `outputs` fields are present only for code cells,
modelled with an outer `Option`). -/
structure CellJSON where
  id : Nat
  cell_type : CellType
  metadata : List (String × String)
  source : List (List Char)
  execution_count : Option (Option Int) := none
  outputs : Option (List Output) := none
  deriving DecidableEq

/-- Embeds `CellModel.toJSON`. -/
def Cell.toJSON (c : Cell) : CellJSON :=
  let base : CellJSON :=
    { id := c.id
      cell_type := c.type
      metadata := c.metadata
      source := sourceFragments c.source }
  if c.type = .code then
    { base with
      execution_count := some c.executionCount
      outputs := some (c.outputs.map outputToNotebookFormat) }
  else base

/-- The cell constructed by `NotebookDocument.load` from one stored cell
(`new CellModel({id, type: cell_type || "code", source: join, outputs || [],
executionCount: execution_count, metadata || {}})`). -/
def cellFromData (j : CellJSON) : Cell :=
  { id := j.id
    type := j.cell_type
    source := joinFragments j.source
    outputs := j.outputs.getD []
    executionCount := j.execution_count.getD none
    metadata := j.metadata }

/-- Structural equality of cells as stated by the round-trip property:
type, source, outputs, and execution count. -/
def Cell.structEq (a b : Cell) : Prop :=
  a.type = b.type ∧ a.source = b.source ∧ a.outputs = b.outputs ∧
    a.executionCount = b.executionCount

/-! ## Notebook document (`notebook-document.js`) -/

/-- Change notifications emitted by the document (`this.emitter.emit(...)`). -/
inductive DocEvent where
  | didChange
  | didInsertCell (index : Nat)
  | didDeleteCell (index : Nat)
  | didMoveCell (fromIndex toIndex : Nat)
  deriving DecidableEq

/-- Embeds `NotebookDocument` state (the fields the verified operations touch;
`kernel` models whether a kernel session object is attached). -/
structure Doc where
  cells : List Cell
  metadata : List (String × String) := []
  modified : Bool := false
  executionCount : Nat := 0
  kernel : Bool := false
  nbformat : Nat := 4
  nbformat_minor : Nat := 5
  deriving DecidableEq

/-- The fresh cell built by `NotebookDocument.insertCell`
(`{id: uuidv4(), type, source: "", outputs: [], executionCount: null,
metadata: {}}`); the uuid is modelled by the constant `0`. -/
def freshCell (type : CellType) : Cell :=
  { id := 0, type := type, source := [], outputs := [], executionCount := none, metadata := [] }

namespace Doc

/-- Embeds `NotebookDocument.insertCell`: `this.cells.splice(index, 0, newCell)`
(splice clamps an out-of-range index to the array length, hence the `min`);
returns the new cell like the source does. -/
def insertCell (d : Doc) (index : Nat) (type : CellType) : Doc × Cell :=
  let newCell := freshCell type
  ({ d with
      cells := d.cells.insertIdx (min index d.cells.length) newCell
      modified := true },
   newCell)

/-- The in-place clearing applied to the last remaining cell by
`deleteCell`/`deleteCells` (`cell.source = ""; cell.clearOutputs()`). -/
def clearCellInPlace (c : Cell) : Cell :=
  ({ c with source := [] } : Cell).clearOutputs

/-- Embeds `NotebookDocument.deleteCell`: with at most one cell, clear it in place
rather than removing it (an empty `cells` array is unreachable — the document
invariant keeps at least one cell — and would throw in the source); otherwise
`splice(index, 1)` (which removes nothing when `index ≥ length`). -/
def deleteCell (d : Doc) (index : Nat) : Doc :=
  if d.cells.length ≤ 1 then
    match d.cells with
    | [] => { d with modified := true }
    | c :: rest => { d with cells := clearCellInPlace c :: rest, modified := true }
  else
    { d with cells := d.cells.eraseIdx index, modified := true }

/-- Embeds `NotebookDocument.deleteCells`: return on an empty index list; sort the
indices in descending order (`sort((a, b) => b - a)`; JS `Array.sort` is a
stable comparison sort, modelled by stable insertion sort); return
(all-or-nothing) if any index is out of range; if the index list is at least
as long as the cell list, clear the first cell and `splice(1)` away the rest;
otherwise delete from highest index to lowest. -/
def deleteCells (d : Doc) (indices : List Nat) : Doc :=
  if indices.isEmpty then d
  else
    let sortedIndices := indices.insertionSort (fun a b => b ≤ a)
    if sortedIndices.any (fun i => decide (d.cells.length ≤ i)) then d
    else if d.cells.length ≤ sortedIndices.length then
      match d.cells with
      | [] => d
      | c :: _ => { d with cells := [clearCellInPlace c], modified := true }
    else
      { d with
        cells := sortedIndices.foldl (fun cs i => cs.eraseIdx i) d.cells
        modified := true }

/-- Embeds `NotebookDocument.moveCell`: validate both indices and that they differ,
then `splice` the cell out and back in. -/
def moveCell (d : Doc) (fromIndex toIndex : Nat) : Doc :=
  if d.cells.length ≤ fromIndex then d
  else if d.cells.length ≤ toIndex then d
  else if fromIndex = toIndex then d
  else
    match d.cells[fromIndex]? with
    | none => d
    | some cell =>
      let rest := d.cells.eraseIdx fromIndex
      { d with cells := rest.insertIdx (min toIndex rest.length) cell, modified := true }

/-- Embeds `NotebookDocument.moveCells`: return on an empty index list; sort
ascending; return (all-or-nothing) if any moved index is out of range;
extract the cells, remove them from highest index to lowest, and splice them
back in at the target adjusted by the number of removed cells before it
(splice clamps, modelled by `take`/`drop`). -/
def moveCells (d : Doc) (indices : List Nat) (targetIndex : Nat) : Doc :=
  if indices.isEmpty then d
  else
    let sortedIndices := indices.insertionSort (fun a b => a ≤ b)
    if sortedIndices.any (fun i => decide (d.cells.length ≤ i)) then d
    else
      let cellsToMove := sortedIndices.filterMap (fun i => d.cells[i]?)
      let cellsBeforeTarget := (sortedIndices.filter (fun i => decide (i < targetIndex))).length
      let afterRemove := sortedIndices.reverse.foldl (fun cs i => cs.eraseIdx i) d.cells
      let adjustedTarget := targetIndex - cellsBeforeTarget
      { d with
        cells := afterRemove.take adjustedTarget ++ cellsToMove ++ afterRemove.drop adjustedTarget
        modified := true }

/-- Embeds `NotebookDocument.changeCellType`: no-op when the index is out of range. -/
def changeCellType (d : Doc) (index : Nat) (type : CellType) : Doc :=
  match d.cells[index]? with
  | none => d
  | some cell =>
    { d with cells := d.cells.set index (cell.setType type), modified := true }

/-- Embeds `NotebookDocument.restartKernel`: only with an attached kernel, restart it
and reset the document's execution counter to `0`. -/
def restartKernel (d : Doc) : Doc :=
  if d.kernel then { d with executionCount := 0 } else d

/-- Embeds `NotebookDocument.toJSON`. -/
def toJSON (d : Doc) : Nat × Nat × List (String × String) × List CellJSON :=
  (d.nbformat, d.nbformat_minor, d.metadata, d.cells.map Cell.toJSON)

/-- The cell list rebuilt by `NotebookDocument.load` from stored cells
(including the "ensure at least one cell" fallback). -/
def loadCells (stored : List CellJSON) : List Cell :=
  let cells := stored.map cellFromData
  if cells.isEmpty then [freshCell .code] else cells

end Doc

/-! ## Cell execution (`NotebookDocument.executeCell`) -/

/-- The behaviour of the awaited `kernel.execute` call as observed by
`executeCell`: the outputs streamed to `onOutput` (each appended to the cell
via `addOutput`), followed either by a terminal resolution or by a
rejection/exception. -/
inductive KernelOutcome where
  | success (streamed : List Output)
  | failure (streamed : List Output) (err : JsError)
  deriving DecidableEq

/-- What `executeCell` does for its caller: skipped (no cell / non-code
cell), completed normally, or re-raised the execution error. -/
inductive ExecOutcome where
  | skipped
  | completed
  | raised (err : JsError)
  deriving DecidableEq

/-- Embeds `NotebookDocument.executeCell` on the path with an attached kernel
(the kernel-picker branch is external UI).  `clearBefore` is the
`jupyter-next.clearOutputBeforeRun` configuration value.  Returns the updated
document, the outcome for the caller, and the emitted change notifications. -/
def Doc.executeCell (d : Doc) (index : Nat) (clearBefore : Bool)
    (outcome : KernelOutcome) : Doc × ExecOutcome × List DocEvent :=
  match d.cells[index]? with
  | none => (d, .skipped, [])
  | some cell =>
    if cell.type ≠ .code then (d, .skipped, [])
    else
      let cell := if clearBefore then cell.clearOutputs else cell
      let cell := cell.setRunning true
      let counter := d.executionCount + 1
      match outcome with
      | .success streamed =>
        let cell := streamed.foldl (fun c o => c.addOutput o) cell
        let cell := (cell.setExecutionCount (some (counter : Int))).setRunning false
        ({ d with
            cells := d.cells.set index cell
            executionCount := counter
            modified := true },
         .completed,
         DocEvent.didChange :: streamed.map (fun _ => DocEvent.didChange) ++ [DocEvent.didChange])
      | .failure streamed err =>
        let cell := streamed.foldl (fun c o => c.addOutput o) cell
        let cell := (cell.addOutput (errorOutputOf err)).setRunning false
        ({ d with
            cells := d.cells.set index cell
            executionCount := counter },
         .raised err,
         DocEvent.didChange :: streamed.map (fun _ => DocEvent.didChange) ++ [DocEvent.didChange])

/-- The execution count `executeCell` would assign on a successful run at
`index` (the observation used to track count assignments): the incremented
document counter, assigned only when the index denotes a code cell. -/
def Doc.execAssigns (d : Doc) (index : Nat) : List Nat :=
  match d.cells[index]? with
  | none => []
  | some cell => if cell.type = .code then [d.executionCount + 1] else []

/-- A document-level operation for tracking execution counts over time:
a successful execution, a failed execution, or a kernel restart. -/
inductive DocOp where
  | execOk (index : Nat) (streamed : List Output)
  | execErr (index : Nat) (streamed : List Output) (err : JsError)
  | restart
  deriving DecidableEq

/-- Prepend values to the first segment of a non-empty segment list. -/
def consSeg (xs : List Nat) : List (List Nat) → List (List Nat)
  | [] => [xs]
  | seg :: rest => (xs ++ seg) :: rest

/-- Run a sequence of document operations, collecting the execution counts
assigned to cells, segmented at kernel restarts (each inner list holds the
counts assigned between two consecutive restarts, in order). -/
def runSegs (clearBefore : Bool) (d : Doc) : List DocOp → List (List Nat)
  | [] => [[]]
  | .execOk index streamed :: ops =>
    consSeg (d.execAssigns index)
      (runSegs clearBefore (d.executeCell index clearBefore (.success streamed)).1 ops)
  | .execErr index streamed err :: ops =>
    runSegs clearBefore (d.executeCell index clearBefore (.failure streamed err)).1 ops
  | .restart :: ops => [] :: runSegs clearBefore d.restartKernel ops

/-! ## Structural undo manager (`CellUndoManager`) -/

/-- A recorded structural operation (the editor's undo journal entries that the
verified undo/redo application handles; `data` fields as recorded at the push
sites in `jupyter-notebook-editor.js`). -/
inductive Operation where
  | insert (index : Nat)
  | delete (index : Nat) (cell : CellJSON) (previousActiveIndex : Nat)
  | move (fromIndex toIndex : Nat)
  | changeType (index : Nat) (previousType newType : CellType)
  deriving DecidableEq

/-- Embeds `CellUndoManager` state: two bounded stacks and the replay flag. -/
structure CellUndoManager where
  undoStack : List Operation := []
  redoStack : List Operation := []
  maxStackSize : Nat := 100
  isUndoingOrRedoingFlag : Bool := false
  deriving DecidableEq

namespace CellUndoManager

/-- Embeds `isUndoingOrRedoing()`. -/
def isUndoingOrRedoing (m : CellUndoManager) : Bool :=
  m.isUndoingOrRedoingFlag

/-- Embeds `pushOperation(operation)`: record nothing while replaying; otherwise push
onto the undo stack, clear the redo stack, and shift out the oldest entry when
the stack exceeds `maxStackSize`. -/
def pushOperation (m : CellUndoManager) (op : Operation) : CellUndoManager :=
  if m.isUndoingOrRedoingFlag then m
  else
    let undo := m.undoStack ++ [op]
    let undo := if m.maxStackSize < undo.length then undo.tail else undo
    { m with undoStack := undo, redoStack := [] }

/-- Embeds `canUndo()`. -/
def canUndo (m : CellUndoManager) : Bool :=
  !m.undoStack.isEmpty

/-- Embeds `canRedo()`. -/
def canRedo (m : CellUndoManager) : Bool :=
  !m.redoStack.isEmpty

/-- Embeds `popUndo()`: `null` without touching state when the undo stack is empty;
otherwise set the replay flag and move the top entry to the redo stack. -/
def popUndo (m : CellUndoManager) : Option Operation × CellUndoManager :=
  if m.undoStack.isEmpty then (none, m)
  else
    match m.undoStack.getLast? with
    | none => (none, m)
    | some op =>
      (some op,
       { m with
          isUndoingOrRedoingFlag := true
          undoStack := m.undoStack.dropLast
          redoStack := m.redoStack ++ [op] })

/-- Embeds `popRedo()`: symmetric to `popUndo`. -/
def popRedo (m : CellUndoManager) : Option Operation × CellUndoManager :=
  if m.redoStack.isEmpty then (none, m)
  else
    match m.redoStack.getLast? with
    | none => (none, m)
    | some op =>
      (some op,
       { m with
          isUndoingOrRedoingFlag := true
          redoStack := m.redoStack.dropLast
          undoStack := m.undoStack ++ [op] })

/-- Embeds `finishUndoRedo()`. -/
def finishUndoRedo (m : CellUndoManager) : CellUndoManager :=
  { m with isUndoingOrRedoingFlag := false }

end CellUndoManager

/-! ## Editor undo/redo application (`jupyter-notebook-editor.js`) -/

/-- The editor state touched by structural undo/redo. -/
structure Editor where
  doc : Doc
  undoMgr : CellUndoManager
  activeCellIndex : Nat
  deriving DecidableEq

namespace Editor

/-- Embeds `_restoreCell(index, cellData)`: rebuild the cell from its serialized
snapshot and splice it back in (splice clamps, hence the `min`). -/
def restoreCell (e : Editor) (index : Nat) (cellData : CellJSON) : Editor :=
  let newCell := cellFromData cellData
  { e with
    doc := { e.doc with
              cells := e.doc.cells.insertIdx (min index e.doc.cells.length) newCell
              modified := true } }

/-- Embeds `_applyUndoOperation(operation)` for the modelled operation kinds. -/
def applyUndoOperation (e : Editor) (op : Operation) : Editor :=
  match op with
  | .insert index => { e with doc := e.doc.deleteCell index }
  | .delete index cell previousActiveIndex =>
    let e := e.restoreCell index cell
    { e with activeCellIndex := previousActiveIndex }
  | .move fromIndex toIndex => { e with doc := e.doc.moveCell toIndex fromIndex }
  | .changeType index previousType _ =>
    { e with doc := e.doc.changeCellType index previousType }

/-- Embeds `_applyRedoOperation(operation)` for the modelled operation kinds. -/
def applyRedoOperation (e : Editor) (op : Operation) : Editor :=
  match op with
  | .insert index => { e with doc := (e.doc.insertCell index .code).1 }
  | .delete index _ _ => { e with doc := e.doc.deleteCell index }
  | .move fromIndex toIndex => { e with doc := e.doc.moveCell fromIndex toIndex }
  | .changeType index _ newType => { e with doc := e.doc.changeCellType index newType }

/-- Embeds `undoCellOperation()`: guard on `canUndo`, pop, apply the inverse, and
(`finally`) clear the replay flag. -/
def undoCellOperation (e : Editor) : Editor :=
  if ¬ e.undoMgr.canUndo then e
  else
    match e.undoMgr.popUndo with
    | (none, m) => { e with undoMgr := m }
    | (some op, m) =>
      let e := applyUndoOperation { e with undoMgr := m } op
      { e with undoMgr := e.undoMgr.finishUndoRedo }

/-- Embeds `redoCellOperation()`. -/
def redoCellOperation (e : Editor) : Editor :=
  if ¬ e.undoMgr.canRedo then e
  else
    match e.undoMgr.popRedo with
    | (none, m) => { e with undoMgr := m }
    | (some op, m) =>
      let e := applyRedoOperation { e with undoMgr := m } op
      { e with undoMgr := e.undoMgr.finishUndoRedo }

/-- The `_insertCell` command path that claim C7 starts from: record the
insert for undo (only while not replaying) and perform the insertion. -/
def recordAndInsert (e : Editor) (index : Nat) : Editor :=
  let mgr :=
    if ¬ e.undoMgr.isUndoingOrRedoing then
      e.undoMgr.pushOperation (.insert index)
    else e.undoMgr
  { e with doc := (e.doc.insertCell index .code).1, undoMgr := mgr }

end Editor

/-! ## Kernel wrapper execution (`HydrogenKernelWrapper.execute`) -/

/-- The message shapes `_messageToOutput` distinguishes: hydrogen status
messages (`{stream: "status", data}`), execution-count messages, notebook
outputs (`output_type` present), raw iopub status messages
(`content.execution_state`), and anything else. -/
inductive KMsg where
  | statusMsg (data : String)
  | executionCountMsg (n : Int)
  | outputMsg (o : Output)
  | rawStatus (state : String)
  | unknown
  deriving DecidableEq

/-- The classified result of `_messageToOutput` (its `null` results become
`none`; the wrapper-status side effects are not part of the call state). -/
inductive MOut where
  | status (s : String)
  | execCount (n : Int)
  | output (o : Output)
  deriving DecidableEq

/-- Embeds `HydrogenKernelWrapper._messageToOutput`. -/
def messageToOutput : KMsg → Option MOut
  | .statusMsg s => some (.status s)
  | .executionCountMsg n => some (.execCount n)
  | .outputMsg o => some (.output o)
  | .rawStatus _ => none
  | .unknown => none

/-- The mutable state of one `execute(code, callbacks, timeout)` call:
the collected `outputs` array and the `resolved` flag. -/
structure ExecCall where
  outputs : List Output := []
  resolved : Bool := false
  deriving DecidableEq

/-- The externally observable effects of one `execute` call: callback
invocations and promise settlements. -/
inductive ExecEvent where
  | onStatus (s : String)
  | onOutput (o : Output)
  | resolvedWith (status : String)
  | rejectedTimeout (ms : Nat)
  deriving DecidableEq

/-- The asynchronous happenings delivered to one `execute` call: a message on
the main execute callback, a message on the registered last-output-store
adapter (orphan output channel), or the timeout timer firing. -/
inductive WireEvent where
  | fromCallback (m : KMsg)
  | fromStore (m : KMsg)
  | timerFires
  deriving DecidableEq

/-- The main execute callback body: classify the message; statuses are
forwarded to `onStatus` and a terminal `"ok"`/`"error"` finishes the promise
(only once, guarded by `resolved`); execution-count messages are dropped;
outputs are always appended and forwarded, even after resolution. -/
def handleCallbackMsg (st : ExecCall) (m : KMsg) : ExecCall × List ExecEvent :=
  match messageToOutput m with
  | none => (st, [])
  | some (.status s) =>
    if s = "ok" ∨ s = "error" then
      if st.resolved then (st, [.onStatus s])
      else ({ st with resolved := true }, [.onStatus s, .resolvedWith s])
    else (st, [.onStatus s])
  | some (.execCount _) => (st, [])
  | some (.output o) => ({ st with outputs := st.outputs ++ [o] }, [.onOutput o])

/-- The `appendOutput` body of the last-output-store adapter: only messages
that classify to an output (`output.output_type`) are appended and
forwarded; everything else is ignored. -/
def handleStoreMsg (st : ExecCall) (m : KMsg) : ExecCall × List ExecEvent :=
  match messageToOutput m with
  | some (.output o) => ({ st with outputs := st.outputs ++ [o] }, [.onOutput o])
  | _ => (st, [])

/-- The timeout timer body: reject with the distinct timeout error unless the
call already settled. -/
def handleTimer (timeoutMs : Nat) (st : ExecCall) : ExecCall × List ExecEvent :=
  if st.resolved then (st, [])
  else ({ st with resolved := true }, [.rejectedTimeout timeoutMs])

/-- One asynchronous happening applied to the call state. -/
def execStep (timeoutMs : Nat) (st : ExecCall) : WireEvent → ExecCall × List ExecEvent
  | .fromCallback m => handleCallbackMsg st m
  | .fromStore m => handleStoreMsg st m
  | .timerFires => handleTimer timeoutMs st

/-- Run a whole sequence of asynchronous happenings from a given call state,
collecting the observable effects in order. -/
def execRunFrom (timeoutMs : Nat) (st : ExecCall) : List WireEvent → ExecCall × List ExecEvent
  | [] => (st, [])
  | e :: es =>
    let (st', evs) := execStep timeoutMs st e
    let (stf, evsf) := execRunFrom timeoutMs st' es
    (stf, evs ++ evsf)

/-- Run a whole `execute` call from its initial state. -/
def execRun (timeoutMs : Nat) (events : List WireEvent) : ExecCall × List ExecEvent :=
  execRunFrom timeoutMs {} events

/-- Number of settlement effects (resolutions plus rejections) among the
observable effects. -/
def settleCount (evs : List ExecEvent) : Nat :=
  (evs.filter (fun e =>
    match e with
    | .resolvedWith _ => true
    | .rejectedTimeout _ => true
    | _ => false)).length

/-- The outputs a happening delivers (through either sink). -/
def outputOf : WireEvent → Option Output
  | .fromCallback (.outputMsg o) => some o
  | .fromStore (.outputMsg o) => some o
  | _ => none

/-- All outputs delivered by a happening sequence, in order. -/
def deliveredOutputs (events : List WireEvent) : List Output :=
  events.filterMap outputOf

/-- The `onOutput` callback invocations among the observable effects. -/
def onOutputEvents (evs : List ExecEvent) : List Output :=
  evs.filterMap (fun e =>
    match e with
    | .onOutput o => some o
    | _ => none)

/-- Whether a happening is a terminal status delivery on the main execute
callback (`"ok"` or `"error"`). -/
def isTerminalStatus : WireEvent → Bool
  | .fromCallback (.statusMsg s) => s = "ok" ∨ s = "error"
  | _ => false

/-- The first terminal status delivered on the main execute callback. -/
def firstTerminal : List WireEvent → Option String
  | [] => none
  | .fromCallback (.statusMsg s) :: es =>
    if s = "ok" ∨ s = "error" then some s else firstTerminal es
  | .fromCallback (.executionCountMsg _) :: es => firstTerminal es
  | .fromCallback (.outputMsg _) :: es => firstTerminal es
  | .fromCallback (.rawStatus _) :: es => firstTerminal es
  | .fromCallback .unknown :: es => firstTerminal es
  | .fromStore _ :: es => firstTerminal es
  | .timerFires :: es => firstTerminal es

/-! ## Sample data for concrete counterexamples and witnesses -/

/-- A concrete code cell with one character of source. -/
def sampleCell : Cell :=
  { id := 0, type := .code, source := ['x'], outputs := [], executionCount := none, metadata := [] }

/-- A concrete document with a single code cell. -/
def sampleDoc1 : Doc := { cells := [sampleCell] }

/-- A concrete document with three code cells. -/
def sampleDoc3 : Doc :=
  { cells := [sampleCell, { sampleCell with id := 1 }, { sampleCell with id := 2 }] }

/-- A concrete single-cell document with an attached kernel. -/
def sampleDocK : Doc := { cells := [sampleCell], kernel := true }

/-- A concrete JavaScript error value. -/
def sampleErr : JsError :=
  { name := "TypeError", message := "boom", stack := "stacktrace", traceback := none }

/-! ## Helper lemmas about the output reducer -/

/-- Appending an `error` output never merges: it is appended as a new entry. -/
theorem reduceOutputs_error (l : List Output) (e v : String) (t : List String) :
    reduceOutputs l (.error e v t) = l ++ [.error e v t] := by
  rcases h : l.getLast? with _ | o
  · simp [reduceOutputs, h]
  · cases o <;> simp [reduceOutputs, h]

/-- Embeds `addOutput` does not touch the execution count. -/
theorem addOutput_executionCount (c : Cell) (o : Output) :
    (c.addOutput o).executionCount = c.executionCount := rfl

/-- Folding `addOutput` over streamed outputs does not touch the execution
count. -/
theorem foldl_addOutput_executionCount (streamed : List Output) (c : Cell) :
    (streamed.foldl (fun c o => c.addOutput o) c).executionCount = c.executionCount := by
  induction streamed generalizing c with
  | nil => rfl
  | cons o os ih => simpa using ih (c.addOutput o)

/-! ## Claim C5 -/

/-- A condition under which the incoming output merges into the last existing
one: the last entry is a `stream` with the same `name` as the incoming
`stream`. -/
def mergesWithLast (outputs : List Output) (incoming : Output) : Prop :=
  ∃ name lastText newText,
    outputs.getLast? = some (.stream name lastText) ∧ incoming = .stream name newText

instance (outputs : List Output) (incoming : Output) :
    Decidable (mergesWithLast outputs incoming) := by
  unfold mergesWithLast
  rcases outputs.getLast? with _ | o
  · exact isFalse (by simp)
  · cases o with
    | stream n t =>
      cases incoming with
      | stream n2 t2 =>
        exact if h : n = n2 then
          isTrue ⟨n, t, t2, by simp, by simp [h]⟩
        else
          isFalse (by rintro ⟨m, u, v, hu, hv⟩; simp at hu hv; cases hu.1; cases hv.1; exact h rfl)
      | executeResult d => exact isFalse (by rintro ⟨m, u, v, _, hv⟩; simp at hv)
      | displayData d => exact isFalse (by rintro ⟨m, u, v, _, hv⟩; simp at hv)
      | error a b c => exact isFalse (by rintro ⟨m, u, v, _, hv⟩; simp at hv)
    | executeResult d => exact isFalse (by rintro ⟨m, u, v, hu, _⟩; simp at hu)
    | displayData d => exact isFalse (by rintro ⟨m, u, v, hu, _⟩; simp at hu)
    | error a b c => exact isFalse (by rintro ⟨m, u, v, hu, _⟩; simp at hu)

/-- C5: `CellModel.addOutput` obeys the stream-merge rule: when the last
existing output and the incoming output are both `stream`s with the same
name, the incoming text is concatenated onto the existing entry; otherwise
the incoming output is appended as a new entry.  In particular, stdout "a"
then stdout "b" yields one output with text "ab", while stdout "a", stderr
"x", stdout "b" yields three distinct entries in arrival order. -/
theorem claim_C5_stream_merge :
    (∀ (c : Cell) (name lastText newText : String),
        c.outputs.getLast? = some (.stream name lastText) →
        (c.addOutput (.stream name newText)).outputs
          = c.outputs.dropLast ++ [.stream name (lastText ++ newText)]) ∧
    (∀ (c : Cell) (o : Output),
        ¬ mergesWithLast c.outputs o →
        (c.addOutput o).outputs = c.outputs ++ [o]) ∧
    (((freshCell .code).addOutput (.stream "stdout" "a")).addOutput
        (.stream "stdout" "b")).outputs = [.stream "stdout" "ab"] ∧
    ((((freshCell .code).addOutput (.stream "stdout" "a")).addOutput
        (.stream "stderr" "x")).addOutput (.stream "stdout" "b")).outputs
      = [.stream "stdout" "a", .stream "stderr" "x", .stream "stdout" "b"] := by
  refine ⟨?_, ?_, by decide, by decide⟩
  · intro c name lastText newText h
    simp [Cell.addOutput, reduceOutputs, normalizeOutput, h]
  · intro c o h
    unfold Cell.addOutput reduceOutputs normalizeOutput
    rcases hl : c.outputs.getLast? with _ | last
    · simp
    · cases last with
      | stream n t =>
        cases o with
        | stream n2 t2 =>
          have hne : n ≠ n2 := by
            intro he
            exact h ⟨n, t, t2, hl, by simp [he]⟩
          simp [hl, hne]
        | executeResult d => simp [hl]
        | displayData d => simp [hl]
        | error a b tb => simp [hl]
      | executeResult d => cases o <;> simp [hl]
      | displayData d => cases o <;> simp [hl]
      | error a b tb => cases o <;> simp [hl]

/-- Witness for C5: the merge rule applied at a concrete cell. -/
theorem claim_C5_stream_merge_witness :
    (({ freshCell .code with outputs := [.stream "stdout" "a"] } : Cell).addOutput
        (.stream "stdout" "b")).outputs
      = [Output.stream "stdout" "a"].dropLast ++ [.stream "stdout" ("a" ++ "b")] :=
  claim_C5_stream_merge.1 _ "stdout" "a" "b" rfl

/-! ## Claim C6 -/

/-- C6: `CellUndoManager.pushOperation` is a no-op while replaying; otherwise
it appends the operation to the undo stack, always clears the redo stack, and
when the undo stack would exceed the capacity it evicts exactly the oldest
entry, so the stack never exceeds the capacity. -/
theorem claim_C6_push_operation :
    ∀ (m : CellUndoManager) (op : Operation),
      (m.isUndoingOrRedoing = true → m.pushOperation op = m) ∧
      (m.isUndoingOrRedoing = false →
        (m.pushOperation op).redoStack = [] ∧
        (m.undoStack.length + 1 ≤ m.maxStackSize →
          (m.pushOperation op).undoStack = m.undoStack ++ [op]) ∧
        (m.maxStackSize < m.undoStack.length + 1 →
          (m.pushOperation op).undoStack = (m.undoStack ++ [op]).tail) ∧
        (m.undoStack.length ≤ m.maxStackSize →
          (m.pushOperation op).undoStack.length ≤ m.maxStackSize)) := by
  intro m op
  constructor
  · intro h
    simp [CellUndoManager.pushOperation, CellUndoManager.isUndoingOrRedoing] at h ⊢
    simp [h]
  · intro h
    simp [CellUndoManager.isUndoingOrRedoing] at h
    refine ⟨by simp [CellUndoManager.pushOperation, h], ?_, ?_, ?_⟩
    · intro hle
      have hnot : ¬ m.maxStackSize < m.undoStack.length + 1 := by omega
      simp [CellUndoManager.pushOperation, h, hnot]
    · intro hlt
      simp [CellUndoManager.pushOperation, h, hlt]
    · intro hle
      by_cases hc : m.maxStackSize < (m.undoStack ++ [op]).length
      · simp only [CellUndoManager.pushOperation, h, Bool.false_eq_true, if_false, hc, if_true]
        simp only [List.length_tail, List.length_append, List.length_cons, List.length_nil]
        omega
      · simp only [CellUndoManager.pushOperation, h, Bool.false_eq_true, if_false, hc, if_false]
        simp only [List.length_append, List.length_cons, List.length_nil] at hc ⊢
        omega

/-- Witness for C6: pushing onto a fresh manager. -/
theorem claim_C6_push_operation_witness :
    (({} : CellUndoManager).pushOperation (.insert 0)).redoStack = [] ∧
    (({} : CellUndoManager).pushOperation (.insert 0)).undoStack = [] ++ [.insert 0] :=
  ⟨((claim_C6_push_operation {} (.insert 0)).2 rfl).1,
   ((claim_C6_push_operation {} (.insert 0)).2 rfl).2.1 (by decide)⟩

/-! ## Claim C3 -/

/-- Counterexample to C3 as stated: `insertCell` with an out-of-range index
does not leave the cell sequence unchanged — `splice(index, 0, newCell)`
clamps the index and appends, so inserting at index 5 into a single-cell
document adds a second cell. -/
theorem claim_C3_counterexample :
    sampleDoc1.cells.length ≤ 5 ∧
    (sampleDoc1.insertCell 5 .code).1.cells ≠ sampleDoc1.cells ∧
    (sampleDoc1.insertCell 5 .code).1.cells.length = 2 := by
  decide

/-- C3 (amended): `deleteCells`, `moveCell`, `moveCells` and `changeCellType`
given any out-of-range index leave the cell sequence unchanged, and
`deleteCells`/`moveCells` validate all supplied indices before mutating
(all-or-nothing); `deleteCell` on a document with more than one cell treats
an out-of-range index as a no-op; but `insertCell` clamps an out-of-range
index and appends the new cell at the end. -/
theorem claim_C3_amended :
    (∀ (d : Doc) (i : Nat), 1 < d.cells.length → d.cells.length ≤ i →
        (d.deleteCell i).cells = d.cells) ∧
    (∀ (d : Doc) (indices : List Nat),
        (∃ i ∈ indices, d.cells.length ≤ i) → d.deleteCells indices = d) ∧
    (∀ (d : Doc) (f t : Nat), d.cells.length ≤ f ∨ d.cells.length ≤ t →
        d.moveCell f t = d) ∧
    (∀ (d : Doc) (indices : List Nat) (t : Nat),
        (∃ i ∈ indices, d.cells.length ≤ i) → d.moveCells indices t = d) ∧
    (∀ (d : Doc) (i : Nat) (ty : CellType), d.cells.length ≤ i →
        d.changeCellType i ty = d) ∧
    (∀ (d : Doc) (i : Nat) (ty : CellType), d.cells.length ≤ i →
        (d.insertCell i ty).1.cells = d.cells ++ [freshCell ty]) := by
  refine ⟨?_, ?_, ?_, ?_, ?_, ?_⟩
  · intro d i h1 h2
    have hn : ¬ d.cells.length ≤ 1 := by omega
    simp [Doc.deleteCell, hn, List.eraseIdx_of_length_le h2]
  · intro d indices ⟨i, hi, hlen⟩
    have hne : ¬ indices.isEmpty := by
      cases indices with
      | nil => cases hi
      | cons a l => simp
    have hany : (indices.insertionSort (fun a b => b ≤ a)).any
        (fun j => decide (d.cells.length ≤ j)) = true := by
      simp only [List.any_eq_true]
      exact ⟨i, (List.mem_insertionSort _).mpr hi, by simpa using hlen⟩
    simp [Doc.deleteCells, hne, hany]
  · intro d f t h
    rcases h with h | h
    · simp [Doc.moveCell, h]
    · unfold Doc.moveCell
      rcases Nat.lt_or_ge f d.cells.length with hf | hf
      · have : ¬ d.cells.length ≤ f := by omega
        simp [this, h]
      · simp [hf]
  · intro d indices t ⟨i, hi, hlen⟩
    have hne : ¬ indices.isEmpty := by
      cases indices with
      | nil => cases hi
      | cons a l => simp
    have hany : (indices.insertionSort (fun a b => a ≤ b)).any
        (fun j => decide (d.cells.length ≤ j)) = true := by
      simp only [List.any_eq_true]
      exact ⟨i, (List.mem_insertionSort _).mpr hi, by simpa using hlen⟩
    simp [Doc.moveCells, hne, hany]
  · intro d i ty h
    have : d.cells[i]? = none := by
      simp [List.getElem?_eq_none, h]
    simp [Doc.changeCellType, this]
  · intro d i ty h
    have hmin : min i d.cells.length = d.cells.length := by omega
    simp [Doc.insertCell, hmin]

/-- Witness for C3 (amended): the no-op and clamped-append behaviour at
concrete out-of-range indices. -/
theorem claim_C3_amended_witness :
    (sampleDoc3.deleteCell 7).cells = sampleDoc3.cells ∧
    sampleDoc3.deleteCells [0, 7] = sampleDoc3 ∧
    sampleDoc3.moveCell 7 0 = sampleDoc3 ∧
    sampleDoc3.moveCells [7] 0 = sampleDoc3 ∧
    sampleDoc3.changeCellType 7 .markdown = sampleDoc3 ∧
    (sampleDoc1.insertCell 5 .code).1.cells = sampleDoc1.cells ++ [freshCell .code] :=
  ⟨claim_C3_amended.1 sampleDoc3 7 (by decide) (by decide),
   claim_C3_amended.2.1 sampleDoc3 [0, 7] ⟨7, by decide, by decide⟩,
   claim_C3_amended.2.2.1 sampleDoc3 7 0 (Or.inl (by decide)),
   claim_C3_amended.2.2.2.1 sampleDoc3 [7] 0 ⟨7, by decide, by decide⟩,
   claim_C3_amended.2.2.2.2.1 sampleDoc3 7 .markdown (by decide),
   claim_C3_amended.2.2.2.2.2 sampleDoc1 5 .code (by decide)⟩

/-! ## Claim C4 -/

/-- C4: when the kernel's `execute` rejects or throws before a terminal
status, `executeCell` appends a synthetic error output summarizing the
failure, clears the cell's running flag (status back to idle), emits a change
notification, and re-raises the error to the caller. -/
theorem claim_C4_exec_failure :
    ∀ (d : Doc) (index : Nat) (clearBefore : Bool) (streamed : List Output)
      (err : JsError) (c : Cell),
      d.cells[index]? = some c → c.type = .code →
      ((d.executeCell index clearBefore (.failure streamed err)).2.1
          = .raised err) ∧
      (∃ c', (d.executeCell index clearBefore (.failure streamed err)).1.cells[index]?
            = some c' ∧
          c'.outputs.getLast? = some (errorOutputOf err) ∧
          c'.running = false ∧ c'.status = "idle") ∧
      DocEvent.didChange ∈ (d.executeCell index clearBefore (.failure streamed err)).2.2 := by
  intro d index clearBefore streamed err c hc htype
  have hidx : index < d.cells.length := by
    rcases List.getElem?_eq_some.mp hc with ⟨h, _⟩
    exact h
  have htype' : ¬ c.type ≠ CellType.code := by simp [htype]
  refine ⟨?_, ?_, ?_⟩
  · simp [Doc.executeCell, hc, htype']
  · refine ⟨(((streamed.foldl (fun c o => c.addOutput o)
        ((if clearBefore then c.clearOutputs else c).setRunning true))).addOutput
          (errorOutputOf err)).setRunning false, ?_, ?_, rfl, rfl⟩
    · simp only [Doc.executeCell, hc, htype', if_false]
      exact List.getElem?_set_self hidx
    · show ((((streamed.foldl (fun c o => c.addOutput o)
          ((if clearBefore then c.clearOutputs else c).setRunning true))).addOutput
            (errorOutputOf err)).setRunning false).outputs.getLast?
          = some (errorOutputOf err)
      rcases err with ⟨en, ev, es, et⟩
      show (reduceOutputs _ (normalizeOutput (errorOutputOf ⟨en, ev, es, et⟩))).getLast?
          = some (errorOutputOf ⟨en, ev, es, et⟩)
      rw [show normalizeOutput (errorOutputOf ⟨en, ev, es, et⟩)
            = errorOutputOf ⟨en, ev, es, et⟩ from rfl]
      rw [show errorOutputOf ⟨en, ev, es, et⟩
            = Output.error (if en = "" then "Error" else en) ev
                (match et with
                 | some t => t
                 | none => [if es = "" then ev else es]) from rfl]
      rw [reduceOutputs_error]
      exact List.getLast?_concat _
  · simp [Doc.executeCell, hc, htype']

/-- Witness for C4: a concrete failing execution on a three-cell document. -/
theorem claim_C4_exec_failure_witness :
    ((sampleDoc3.executeCell 0 false
        (.failure [.stream "stdout" "partial"] sampleErr)).2.1
      = .raised sampleErr) ∧
    DocEvent.didChange ∈ (sampleDoc3.executeCell 0 false
        (.failure [.stream "stdout" "partial"] sampleErr)).2.2 :=
  ⟨(claim_C4_exec_failure sampleDoc3 0 false [.stream "stdout" "partial"]
      sampleErr sampleCell (by decide) rfl).1,
   (claim_C4_exec_failure sampleDoc3 0 false [.stream "stdout" "partial"]
      sampleErr sampleCell (by decide) rfl).2.2⟩

/-! ## Claim C2 -/

/-- Deleting at a strictly descending list of in-range indices removes
exactly one element per index. -/
theorem length_foldl_eraseIdx {α : Type} :
    ∀ (l : List Nat) (cs : List α),
      l.Pairwise (· > ·) → (∀ i ∈ l, i < cs.length) →
      (l.foldl (fun acc i => acc.eraseIdx i) cs).length = cs.length - l.length := by
  intro l
  induction l with
  | nil => intro cs _ _; simp
  | cons i rest ih =>
    intro cs hpw hval
    rcases List.pairwise_cons.mp hpw with ⟨hgt, hpw'⟩
    have hi : i < cs.length := hval i (List.mem_cons_self i rest)
    have hlen : (cs.eraseIdx i).length = cs.length - 1 :=
      List.length_eraseIdx_of_lt hi
    have hval' : ∀ j ∈ rest, j < (cs.eraseIdx i).length := by
      intro j hj
      have h1 : j < i := hgt j hj
      omega
    have := ih (cs.eraseIdx i) hpw' hval'
    simp only [List.foldl_cons, List.length_cons]
    rw [this, hlen]
    omega

/-- Each deletion removes at most one element. -/
theorem length_foldl_eraseIdx_ge {α : Type} :
    ∀ (l : List Nat) (cs : List α),
      cs.length - l.length ≤ (l.foldl (fun acc i => acc.eraseIdx i) cs).length := by
  intro l
  induction l with
  | nil => intro cs; simp
  | cons i rest ih =>
    intro cs
    have h1 : cs.length - 1 ≤ (cs.eraseIdx i).length := by
      have := List.length_eraseIdx (l := cs) (i := i)
      split at this <;> omega
    have := ih (cs.eraseIdx i)
    simp only [List.foldl_cons, List.length_cons]
    omega

/-- Sorting a duplicate-free list with `(a, b) => b - a` yields a strictly
descending list. -/
theorem insertionSort_desc_pairwise (l : List Nat) (h : l.Nodup) :
    (l.insertionSort (fun a b => b ≤ a)).Pairwise (· > ·) := by
  haveI : IsTotal Nat (fun a b => b ≤ a) := ⟨fun a b => Nat.le_total b a⟩
  haveI : IsTrans Nat (fun a b => b ≤ a) :=
    ⟨fun _ _ _ hab hbc => Nat.le_trans hbc hab⟩
  have hsorted : (l.insertionSort (fun a b => b ≤ a)).Pairwise
      (fun a b => b ≤ a) :=
    List.sorted_insertionSort (fun a b => b ≤ a) l
  have hnd : (l.insertionSort (fun a b => b ≤ a)).Nodup :=
    ((List.perm_insertionSort _ l).nodup_iff).mpr h
  have := hsorted.and hnd
  exact this.imp (fun hab => by
    rcases hab with ⟨h1, h2⟩
    omega)

/-- A duplicate-free list of indices below `n` has at most `n` entries. -/
theorem nodup_lt_length_le (l : List Nat) (n : Nat) (hnd : l.Nodup)
    (h : ∀ i ∈ l, i < n) : l.length ≤ n := by
  have hsub : l.toFinset ⊆ Finset.range n := by
    intro i hi
    rw [Finset.mem_range]
    exact h i (List.mem_toFinset.mp hi)
  have := Finset.card_le_card hsub
  rwa [List.toFinset_card_of_nodup hnd, Finset.card_range] at this

/-- Counterexample to C2 as stated: `[1, 1]` is a sequence of valid indices
of the three-cell document with one distinct value, yet `deleteCells [1, 1]`
removes a cell per occurrence and leaves 1 cell, not `3 − 1 = 2`. -/
theorem claim_C2_counterexample :
    (∀ i ∈ [1, 1], i < sampleDoc3.cells.length) ∧
    (sampleDoc3.deleteCells [1, 1]).cells.length = 1 ∧
    sampleDoc3.cells.length - ([1, 1].dedup).length = 2 := by
  decide

/-- C2 (amended): for every sequence of *pairwise-distinct* valid indices,
`deleteCells` leaves `original − |indices|` cells, except when the indices
cover all cells, in which case exactly one cleared cell (empty source, empty
outputs) remains; `deleteCell` on a single-cell document clears that cell in
place; both operations preserve the at-least-one-cell invariant.  (With
duplicated indices each occurrence can remove a cell, so the distinct count
does not govern.) -/
theorem claim_C2_amended :
    (∀ (d : Doc) (indices : List Nat),
        indices ≠ [] → indices.Nodup → (∀ i ∈ indices, i < d.cells.length) →
        (indices.length = d.cells.length →
          ∃ c rest, d.cells = c :: rest ∧
            (d.deleteCells indices).cells = [Doc.clearCellInPlace c]) ∧
        (indices.length < d.cells.length →
          (d.deleteCells indices).cells.length
            = d.cells.length - indices.length)) ∧
    (∀ c : Cell, (Doc.clearCellInPlace c).source = [] ∧
        (Doc.clearCellInPlace c).outputs = []) ∧
    (∀ (d : Doc) (i : Nat) (c : Cell), d.cells = [c] →
        (d.deleteCell i).cells = [Doc.clearCellInPlace c]) ∧
    (∀ (d : Doc) (i : Nat), 1 ≤ d.cells.length →
        1 ≤ (d.deleteCell i).cells.length) ∧
    (∀ (d : Doc) (indices : List Nat), 1 ≤ d.cells.length →
        1 ≤ (d.deleteCells indices).cells.length) := by
  refine ⟨?_, ?_, ?_, ?_, ?_⟩
  · intro d indices hne hnd hval
    have hnemp : indices.isEmpty = false := by
      cases indices with
      | nil => exact absurd rfl hne
      | cons a l => rfl
    have hany : ((indices.insertionSort (fun a b => b ≤ a)).any
        (fun i => decide (d.cells.length ≤ i))) = false := by
      rw [List.any_eq_false]
      intro i hi
      simpa using Nat.not_le.mpr (hval i ((List.mem_insertionSort _).mp hi))
    have hslen : (indices.insertionSort (fun a b => b ≤ a)).length
        = indices.length := List.length_insertionSort _ indices
    constructor
    · intro heq
      have hpos : 0 < d.cells.length := by
        cases indices with
        | nil => exact absurd rfl hne
        | cons a l => rw [← heq]; simp
      have hcond : d.cells.length ≤
          (indices.insertionSort (fun a b => b ≤ a)).length := by
        rw [hslen, heq]
      rcases hcells : d.cells with _ | ⟨c, rest⟩
      · rw [hcells] at hpos; simp at hpos
      · refine ⟨c, rest, rfl, ?_⟩
        simp only [Doc.deleteCells, hnemp, Bool.false_eq_true, if_false, hany,
          hcond, if_true]
        rw [hcells]
    · intro hlt
      have hcond : ¬ d.cells.length ≤
          (indices.insertionSort (fun a b => b ≤ a)).length := by
        rw [hslen]; omega
      simp only [Doc.deleteCells, hnemp, Bool.false_eq_true, if_false, hany,
        hcond, if_false]
      rw [length_foldl_eraseIdx _ _ (insertionSort_desc_pairwise indices hnd)
        (fun i hi => hval i ((List.mem_insertionSort _).mp hi)), hslen]
  · intro c
    exact ⟨rfl, rfl⟩
  · intro d i c hcells
    have h1 : d.cells.length ≤ 1 := by rw [hcells]; simp
    simp only [Doc.deleteCell, h1, if_true]
    rw [hcells]
  · intro d i h1
    by_cases hle : d.cells.length ≤ 1
    · rcases hcells : d.cells with _ | ⟨c, rest⟩
      · rw [hcells] at h1; simp at h1
      · simp only [Doc.deleteCell, hle, if_true]
        rw [hcells]
        simp
    · simp only [Doc.deleteCell, hle, if_false]
      have := List.length_eraseIdx (l := d.cells) (i := i)
      split at this <;> simp only [this] <;> omega
  · intro d indices h1
    by_cases hnemp : indices.isEmpty
    · simp [Doc.deleteCells, hnemp]; omega
    · have hnemp' : indices.isEmpty = false := by
        cases h : indices.isEmpty
        · rfl
        · exact absurd h hnemp
      by_cases hany : ((indices.insertionSort (fun a b => b ≤ a)).any
          (fun i => decide (d.cells.length ≤ i))) = true
      · simp [Doc.deleteCells, hnemp', hany]; omega
      · have hany' : ((indices.insertionSort (fun a b => b ≤ a)).any
            (fun i => decide (d.cells.length ≤ i))) = false := by
          cases h : ((indices.insertionSort (fun a b => b ≤ a)).any
              (fun i => decide (d.cells.length ≤ i)))
          · rfl
          · exact absurd h hany
        by_cases hcond : d.cells.length ≤
            (indices.insertionSort (fun a b => b ≤ a)).length
        · rcases hcells : d.cells with _ | ⟨c, rest⟩
          · rw [hcells] at h1; simp at h1
          · simp only [Doc.deleteCells, hnemp', Bool.false_eq_true, if_false,
              hany', hcond, if_true]
            rw [hcells]
            simp
        · simp only [Doc.deleteCells, hnemp', Bool.false_eq_true, if_false,
            hany', hcond, if_false]
          have := length_foldl_eraseIdx_ge
            (indices.insertionSort (fun a b => b ≤ a)) d.cells
          simp only [Nat.not_le] at hcond
          omega

/-- Witness for C2 (amended): deleting one of three cells leaves two; deleting
the only cell of a single-cell document clears it in place. -/
theorem claim_C2_amended_witness :
    (sampleDoc3.deleteCells [1]).cells.length = sampleDoc3.cells.length - 1 ∧
    (sampleDoc1.deleteCell 0).cells = [Doc.clearCellInPlace sampleCell] :=
  ⟨((claim_C2_amended.1 sampleDoc3 [1] (by decide) (by decide)
      (by decide)).2 (by decide)),
   claim_C2_amended.2.2.1 sampleDoc1 0 sampleCell rfl⟩

/-! ## Claim C7 -/

/-- Appending an element never yields the empty list. -/
theorem isEmpty_concat_false {α : Type} (xs : List α) (x : α) :
    (xs ++ [x]).isEmpty = false := by
  cases xs <;> rfl

/-- C7: after recording an insert operation at index `i` and performing the
insertion, `undoCellOperation` moves that entry to the redo stack and applies
the inverse (deleting the cell at `i`), restoring the original cell list;
`redoCellOperation` moves the entry back and re-inserts a cell at index `i`,
restoring the incremented cell count. -/
theorem claim_C7_undo_redo_insert :
    ∀ (d : Doc) (mgr : CellUndoManager) (i a : Nat),
      mgr.isUndoingOrRedoingFlag = false →
      mgr.undoStack.length < mgr.maxStackSize →
      1 ≤ d.cells.length → i ≤ d.cells.length →
      ((Editor.recordAndInsert ⟨d, mgr, a⟩ i).doc.cells.length
          = d.cells.length + 1) ∧
      ((Editor.recordAndInsert ⟨d, mgr, a⟩ i).undoCellOperation.undoMgr.redoStack
          = [Operation.insert i]) ∧
      ((Editor.recordAndInsert ⟨d, mgr, a⟩ i).undoCellOperation.doc.cells
          = d.cells) ∧
      ((Editor.recordAndInsert ⟨d, mgr, a⟩
          i).undoCellOperation.redoCellOperation.undoMgr.undoStack
          = mgr.undoStack ++ [Operation.insert i]) ∧
      ((Editor.recordAndInsert ⟨d, mgr, a⟩
          i).undoCellOperation.redoCellOperation.doc.cells.length
          = d.cells.length + 1) ∧
      ((Editor.recordAndInsert ⟨d, mgr, a⟩
          i).undoCellOperation.redoCellOperation.doc.cells[i]?
          = some (freshCell .code)) := by
  intro d mgr i a hflag hmax hn hi
  have hmin : min i d.cells.length = i := by omega
  have hpush : mgr.pushOperation (.insert i)
      = { mgr with undoStack := mgr.undoStack ++ [.insert i], redoStack := [] } := by
    have hnot : ¬ mgr.maxStackSize < mgr.undoStack.length + 1 := by omega
    simp [CellUndoManager.pushOperation, hflag, hnot]
  have he1 : Editor.recordAndInsert ⟨d, mgr, a⟩ i
      = ⟨{ d with cells := d.cells.insertIdx i (freshCell .code), modified := true },
         { mgr with undoStack := mgr.undoStack ++ [.insert i], redoStack := [] }, a⟩ := by
    simp [Editor.recordAndInsert, CellUndoManager.isUndoingOrRedoing, hflag, hpush,
      Doc.insertCell, hmin]
  have hlen1 : (d.cells.insertIdx i (freshCell .code)).length = d.cells.length + 1 :=
    List.length_insertIdx i d.cells hi
  have hnotle : ¬ (d.cells.insertIdx i (freshCell .code)).length ≤ 1 := by
    rw [hlen1]; omega
  have he2 : (Editor.recordAndInsert ⟨d, mgr, a⟩ i).undoCellOperation
      = ⟨{ d with cells := d.cells, modified := true },
         { mgr with
            undoStack := mgr.undoStack, redoStack := [Operation.insert i],
            isUndoingOrRedoingFlag := false }, a⟩ := by
    rw [he1]
    simp [Editor.undoCellOperation, CellUndoManager.canUndo, isEmpty_concat_false,
      CellUndoManager.popUndo, List.getLast?_concat, Editor.applyUndoOperation,
      Doc.deleteCell, hnotle, List.eraseIdx_insertIdx, CellUndoManager.finishUndoRedo]
  have he3 : (Editor.recordAndInsert ⟨d, mgr, a⟩ i).undoCellOperation.redoCellOperation
      = ⟨{ d with cells := d.cells.insertIdx i (freshCell .code), modified := true },
         { mgr with
            undoStack := mgr.undoStack ++ [Operation.insert i],
            redoStack := [], isUndoingOrRedoingFlag := false }, a⟩ := by
    rw [he2]
    simp [Editor.redoCellOperation, CellUndoManager.canRedo, CellUndoManager.popRedo,
      Editor.applyRedoOperation, Doc.insertCell, hmin, CellUndoManager.finishUndoRedo]
  have hget : (d.cells.insertIdx i (freshCell .code))[i]? = some (freshCell .code) := by
    rw [List.getElem?_eq_getElem (by rw [hlen1]; omega)]
    rw [List.getElem_insertIdx_self d.cells (freshCell .code) i hi]
  refine ⟨?_, ?_, ?_, ?_, ?_, ?_⟩
  · rw [he1]; exact hlen1
  · rw [he2]
  · rw [he2]
  · rw [he3]
  · rw [he3]; exact hlen1
  · rw [he3]; exact hget

/-- Witness for C7: the undo/redo round trip at a concrete three-cell
document. -/
theorem claim_C7_undo_redo_insert_witness :
    ((Editor.recordAndInsert ⟨sampleDoc3, {}, 1⟩ 1).undoCellOperation.doc.cells
        = sampleDoc3.cells) ∧
    ((Editor.recordAndInsert ⟨sampleDoc3, {}, 1⟩
        1).undoCellOperation.redoCellOperation.doc.cells.length
        = sampleDoc3.cells.length + 1) :=
  ⟨(claim_C7_undo_redo_insert sampleDoc3 {} 1 1 rfl (by decide) (by decide)
      (by decide)).2.2.1,
   (claim_C7_undo_redo_insert sampleDoc3 {} 1 1 rfl (by decide) (by decide)
      (by decide)).2.2.2.2.1⟩

/-! ## Claim C8 -/

/-- Embeds `split` always yields at least one part. -/
theorem splitLines_ne_nil (s : List Char) : splitLines s ≠ [] := by
  induction s with
  | nil => simp [splitLines]
  | cons c cs ih =>
    by_cases h : c = '\n'
    · simp [splitLines, h]
    · simp only [splitLines, h, if_false]
      cases hs : splitLines cs with
      | nil => simp [consHead]
      | cons p ps => simp [consHead]

/-- Embeds `joinFragments` unfolds on `cons`. -/
theorem joinFragments_cons (p : List Char) (ps : List (List Char)) :
    joinFragments (p :: ps) = p ++ joinFragments ps := rfl

/-- Splitting at a leading newline yields a leading empty part. -/
theorem splitLines_cons_newline (cs : List Char) :
    splitLines ('\n' :: cs) = [] :: splitLines cs := by
  simp [splitLines]

/-- Splitting at a non-newline character prepends it to the first part. -/
theorem splitLines_cons_other (c : Char) (cs : List Char) (h : c ≠ '\n') :
    splitLines (c :: cs) = consHead c (splitLines cs) := by
  simp [splitLines, h]

/-- Joining the newline-decorated parts of a split recovers the original
string. -/
theorem join_addNewlines_splitLines (s : List Char) :
    joinFragments (addNewlines (splitLines s)) = s := by
  induction s with
  | nil => rfl
  | cons c cs ih =>
    by_cases h : c = '\n'
    · subst h
      rw [splitLines_cons_newline]
      cases hs : splitLines cs with
      | nil => exact absurd hs (splitLines_ne_nil cs)
      | cons p ps =>
        rw [hs] at ih
        rw [show addNewlines ([] :: p :: ps)
              = ([] ++ ['\n']) :: addNewlines (p :: ps) from rfl]
        rw [joinFragments_cons, ← ih]
        simp
    · rw [splitLines_cons_other c cs h]
      cases hs : splitLines cs with
      | nil => exact absurd hs (splitLines_ne_nil cs)
      | cons p ps =>
        rw [hs] at ih
        rw [show consHead c (p :: ps) = (c :: p) :: ps from rfl]
        cases ps with
        | nil =>
          rw [show addNewlines [c :: p] = [c :: p] from rfl]
          rw [show addNewlines [p] = [p] from rfl] at ih
          rw [joinFragments_cons] at ih ⊢
          simp at ih ⊢
          exact ih
        | cons q qs =>
          rw [show addNewlines ((c :: p) :: q :: qs)
                = ((c :: p) ++ ['\n']) :: addNewlines (q :: qs) from rfl]
          rw [show addNewlines (p :: q :: qs)
                = (p ++ ['\n']) :: addNewlines (q :: qs) from rfl] at ih
          rw [joinFragments_cons] at ih ⊢
          rw [← ih]
          simp

/-- Dropping empty fragments does not change the joined text. -/
theorem joinFragments_filter (l : List (List Char)) :
    joinFragments (l.filter (fun line => line ≠ [])) = joinFragments l := by
  induction l with
  | nil => rfl
  | cons p ps ih =>
    rw [List.filter_cons]
    by_cases h : p = []
    · subst h
      rw [if_neg (by simp), ih]
      rfl
    · rw [if_pos (by simp [h]), joinFragments_cons, joinFragments_cons, ih]

/-- The source round trip: joining the serialized fragments recovers the
original source text. -/
theorem joinFragments_sourceFragments (s : List Char) :
    joinFragments (sourceFragments s) = s := by
  unfold sourceFragments
  rw [joinFragments_filter, join_addNewlines_splitLines]

/-- Embeds `outputToNotebookFormat` maps to itself over an output list. -/
theorem map_outputToNotebookFormat (l : List Output) :
    l.map outputToNotebookFormat = l :=
  List.map_id'' (fun _ => rfl) l

/-- Round trip of a single cell through `toJSON` and the load constructor. -/
theorem cellFromData_toJSON (c : Cell)
    (hinv : c.type ≠ .code → c.outputs = [] ∧ c.executionCount = none) :
    (cellFromData c.toJSON).structEq c := by
  by_cases h : c.type = .code
  · refine ⟨?_, ?_, ?_, ?_⟩ <;>
      simp [cellFromData, Cell.toJSON, h, joinFragments_sourceFragments,
        map_outputToNotebookFormat]
  · rcases hinv h with ⟨ho, he⟩
    refine ⟨?_, ?_, ?_, ?_⟩ <;>
      simp [cellFromData, Cell.toJSON, h, joinFragments_sourceFragments, ho, he]

/-- C8: `toJSON` splits the source on newlines keeping each fragment's
trailing newline except the last and dropping empty fragments, and joining
the fragments on load yields exactly the original source, so save followed by
load gives a structurally equal cell sequence (type, source, outputs,
execution count). (Structural equality of outputs holds under the documented
data-model invariant that non-code cells carry no outputs and no execution
count, since `toJSON` serializes those fields for code cells only.) -/
theorem claim_C8_roundtrip :
    (∀ s : List Char, joinFragments (sourceFragments s) = s) ∧
    (∀ s : List Char, [] ∉ sourceFragments s) ∧
    (∀ c : Cell, (c.type ≠ .code → c.outputs = [] ∧ c.executionCount = none) →
        (cellFromData c.toJSON).structEq c) ∧
    (∀ d : Doc, d.cells ≠ [] →
        (∀ c ∈ d.cells, c.type ≠ .code → c.outputs = [] ∧ c.executionCount = none) →
        List.Forall₂ Cell.structEq (Doc.loadCells (d.toJSON).2.2.2) d.cells) := by
  refine ⟨joinFragments_sourceFragments, ?_, cellFromData_toJSON, ?_⟩
  · intro s
    unfold sourceFragments
    simp [List.mem_filter]
  · intro d hne hinv
    show List.Forall₂ Cell.structEq (Doc.loadCells (d.cells.map Cell.toJSON)) d.cells
    have hne' : (d.cells.map (cellFromData ∘ Cell.toJSON)).isEmpty = false := by
      cases hc : d.cells with
      | nil => exact absurd hc hne
      | cons c cs => simp [hc]
    simp only [Doc.loadCells, List.map_map, hne', Bool.false_eq_true, if_false]
    rw [List.forall₂_map_left_iff, List.forall₂_same]
    intro c hc
    exact cellFromData_toJSON c (hinv c hc)

/-- Witness for C8: the round trip at a concrete cell with a two-line source
ending in a newline, and at a concrete document. -/
theorem claim_C8_roundtrip_witness :
    joinFragments (sourceFragments "a\n\nb\n".data) = "a\n\nb\n".data ∧
    (cellFromData sampleCell.toJSON).structEq sampleCell ∧
    List.Forall₂ Cell.structEq (Doc.loadCells (sampleDoc3.toJSON).2.2.2)
      sampleDoc3.cells :=
  ⟨claim_C8_roundtrip.1 "a\n\nb\n".data,
   claim_C8_roundtrip.2.2.1 sampleCell (fun h => absurd rfl h),
   claim_C8_roundtrip.2.2.2 sampleDoc3 (by decide)
     (by intro c hc; fin_cases hc <;> exact fun h => absurd rfl h)⟩

/-! ## Claim C10 -/

/-- The execution counter after `executeCell` grows by exactly the number of
counts assigned (one on a code cell, zero otherwise), for both outcomes. -/
theorem executeCell_executionCount (d : Doc) (i : Nat) (cfg : Bool)
    (outcome : KernelOutcome) :
    (d.executeCell i cfg outcome).1.executionCount
      = d.executionCount + (d.execAssigns i).length := by
  unfold Doc.executeCell Doc.execAssigns
  cases h : d.cells[i]? with
  | none => simp
  | some c =>
    by_cases ht : c.type = CellType.code
    · have ht' : ¬ c.type ≠ CellType.code := by simp [ht]
      cases outcome <;> simp [ht, ht']
    · cases outcome <;> simp [ht]

/-- Embeds `execAssigns` yields nothing or exactly the incremented counter. -/
theorem execAssigns_cases (d : Doc) (i : Nat) :
    d.execAssigns i = [] ∨ d.execAssigns i = [d.executionCount + 1] := by
  unfold Doc.execAssigns
  cases h : d.cells[i]? with
  | none => exact Or.inl rfl
  | some c =>
    by_cases ht : c.type = CellType.code
    · exact Or.inr (by simp [ht])
    · exact Or.inl (by simp [ht])

/-- Embeds `runSegs` always returns at least one (possibly empty) segment. -/
theorem runSegs_ne_nil (cfg : Bool) :
    ∀ (ops : List DocOp) (d : Doc), runSegs cfg d ops ≠ [] := by
  intro ops
  induction ops with
  | nil => intro d; simp [runSegs]
  | cons op rest ih =>
    intro d
    cases op with
    | execOk i streamed =>
      simp only [runSegs]
      cases hr : runSegs cfg (d.executeCell i cfg (.success streamed)).1 rest with
      | nil => exact absurd hr (ih _)
      | cons seg segs => simp [consSeg]
    | execErr i streamed err => exact ih _
    | restart => simp [runSegs]

/-- Each segment of assigned execution counts is strictly increasing, and
every count in the current (first) segment exceeds the starting counter. -/
theorem runSegs_chain (cfg : Bool) :
    ∀ (ops : List DocOp) (d : Doc),
      (∀ seg ∈ runSegs cfg d ops, seg.Chain' (· < ·)) ∧
      (∀ x ∈ (runSegs cfg d ops).headI, d.executionCount < x) := by
  intro ops
  induction ops with
  | nil =>
    intro d
    constructor
    · intro seg hseg
      simp [runSegs] at hseg
      subst hseg
      exact List.chain'_nil
    · intro x hx
      simp [runSegs, List.headI] at hx
  | cons op rest ih =>
    intro d
    cases op with
    | execOk i streamed =>
      obtain ⟨ihchain, ihhead⟩ := ih (d.executeCell i cfg (.success streamed)).1
      have hcount := executeCell_executionCount d i cfg (.success streamed)
      simp only [runSegs]
      cases hr : runSegs cfg (d.executeCell i cfg (.success streamed)).1 rest with
      | nil => exact absurd hr (runSegs_ne_nil cfg rest _)
      | cons seg segs =>
        rw [hr] at ihchain ihhead
        rcases execAssigns_cases d i with ha | ha <;> rw [ha]
        · constructor
          · intro s hs
            simp only [consSeg, List.nil_append] at hs
            exact ihchain s hs
          · intro x hx
            simp only [consSeg, List.nil_append, List.headI] at hx
            have := ihhead x hx
            rw [hcount, ha] at this
            simpa using this
        · have hc : (d.executeCell i cfg (.success streamed)).1.executionCount
              = d.executionCount + 1 := by
            rw [hcount, ha]; rfl
          constructor
          · intro s hs
            simp only [consSeg, List.singleton_append] at hs
            rcases List.mem_cons.mp hs with hseq | hmem
            · subst hseq
              refine List.Chain'.cons' (ihchain seg (List.mem_cons_self _ _)) ?_
              intro y hy
              have := ihhead y (List.mem_of_mem_head? hy)
              simp only [List.headI] at this
              omega
            · exact ihchain s (List.mem_cons_of_mem _ hmem)
          · intro x hx
            simp only [consSeg, List.singleton_append, List.headI] at hx
            rcases List.mem_cons.mp hx with hxe | hxm
            · subst hxe; omega
            · have := ihhead x hxm
              simp only [List.headI] at this
              omega
    | execErr i streamed err =>
      obtain ⟨ihchain, ihhead⟩ := ih (d.executeCell i cfg (.failure streamed err)).1
      have hcount := executeCell_executionCount d i cfg (.failure streamed err)
      simp only [runSegs]
      refine ⟨ihchain, ?_⟩
      intro x hx
      have := ihhead x hx
      omega
    | restart =>
      obtain ⟨ihchain, ihhead⟩ := ih d.restartKernel
      simp only [runSegs]
      constructor
      · intro seg hseg
        rcases List.mem_cons.mp hseg with hseq | hmem
        · subst hseq; exact List.chain'_nil
        · exact ihchain seg hmem
      · intro x hx
        simp [List.headI] at hx

/-- A failed execution (with output clearing off) leaves every cell's
execution count untouched. -/
theorem executeCell_failure_counts (d : Doc) (i : Nat) (streamed : List Output)
    (err : JsError) :
    ((d.executeCell i false (.failure streamed err)).1.cells.map
        (fun c => c.executionCount))
      = d.cells.map (fun c => c.executionCount) := by
  unfold Doc.executeCell
  cases h : d.cells[i]? with
  | none => simp
  | some c =>
    by_cases ht : c.type ≠ CellType.code
    · simp [ht]
    · simp only [ht, Bool.false_eq_true, if_false, if_neg ht]
      rw [List.map_set]
      have hcnt : ((((streamed.foldl (fun c o => c.addOutput o)
            (c.setRunning true))).addOutput (errorOutputOf err)).setRunning
              false).executionCount = c.executionCount := by
        show (((streamed.foldl (fun c o => c.addOutput o)
            (c.setRunning true))).addOutput (errorOutputOf err)).executionCount
            = c.executionCount
        rw [addOutput_executionCount, foldl_addOutput_executionCount]
        rfl
      rw [hcnt]
      apply List.ext_getElem?
      intro n
      by_cases hn : n = i
      · subst hn
        have hlt : n < d.cells.length := (List.getElem?_eq_some.mp h).1
        rw [List.getElem?_set_self (by simpa using hlt)]
        simp [List.getElem?_map, h]
      · rw [List.getElem?_set_ne (by omega)]

/-- A failed execution with output clearing enabled resets the executed code
cell's count to null (the pre-run `clearOutputs`) — it never assigns a new
number — and leaves every other cell entirely untouched. -/
theorem executeCell_failure_clear_counts (d : Doc) (i : Nat)
    (streamed : List Output) (err : JsError) (c : Cell)
    (hc : d.cells[i]? = some c) (htype : c.type = .code) :
    (((d.executeCell i true (.failure streamed err)).1.cells[i]?).map
        (fun c => c.executionCount) = some none) ∧
    (∀ j : Nat, j ≠ i →
        (d.executeCell i true (.failure streamed err)).1.cells[j]?
          = d.cells[j]?) := by
  have hidx : i < d.cells.length := (List.getElem?_eq_some.mp hc).1
  have htype' : ¬ c.type ≠ CellType.code := by simp [htype]
  have hcnt : ((((streamed.foldl (fun c o => c.addOutput o)
        ((c.clearOutputs).setRunning true))).addOutput
          (errorOutputOf err)).setRunning false).executionCount = none := by
    show (((streamed.foldl (fun c o => c.addOutput o)
        ((c.clearOutputs).setRunning true))).addOutput
          (errorOutputOf err)).executionCount = none
    rw [addOutput_executionCount, foldl_addOutput_executionCount]
    rfl
  constructor
  · simp only [Doc.executeCell, hc, htype', if_false, if_true]
    rw [List.getElem?_set_self hidx]
    simp [hcnt]
  · intro j hj
    simp only [Doc.executeCell, hc, htype', if_false, if_true]
    exact List.getElem?_set_ne (fun he => hj he.symm)

/-- Counterexample to C10 as stated: execution counts are reused across a
kernel restart — running a cell, restarting the kernel (which resets the
document counter to 0), and running again assigns the count 1 twice. -/
theorem claim_C10_counterexample :
    (runSegs false sampleDocK
        [.execOk 0 [], .restart, .execOk 0 []]).flatten = [1, 1] ∧
    ¬ ((runSegs false sampleDocK
        [.execOk 0 [], .restart, .execOk 0 []]).flatten).Nodup := by
  decide

/-- C10 (amended): execution counts are assigned to cells only on successful
runs — a failed run never assigns a count: with the `clearOutputBeforeRun`
configuration disabled it leaves every cell's count untouched, and with it
enabled it only resets the executed code cell's count to null (the pre-run
output clear), leaving every other cell untouched.  Counts are strictly
increasing *between kernel restarts*; `restartKernel` resets the document
counter to 0 (when a kernel is attached), so counts restart from 1 after a
restart and may be reused across restarts. -/
theorem claim_C10_amended :
    (∀ (cfg : Bool) (d : Doc) (ops : List DocOp) (seg : List Nat),
        seg ∈ runSegs cfg d ops → seg.Chain' (· < ·)) ∧
    (∀ (d : Doc) (i : Nat) (streamed : List Output) (err : JsError),
        ((d.executeCell i false (.failure streamed err)).1.cells.map
            (fun c => c.executionCount))
          = d.cells.map (fun c => c.executionCount)) ∧
    (∀ (d : Doc) (i : Nat) (streamed : List Output) (err : JsError) (c : Cell),
        d.cells[i]? = some c → c.type = .code →
        (((d.executeCell i true (.failure streamed err)).1.cells[i]?).map
            (fun c => c.executionCount) = some none) ∧
        (∀ j : Nat, j ≠ i →
            (d.executeCell i true (.failure streamed err)).1.cells[j]?
              = d.cells[j]?)) ∧
    (∀ d : Doc, d.kernel = true → d.restartKernel.executionCount = 0) := by
  refine ⟨?_, executeCell_failure_counts, executeCell_failure_clear_counts, ?_⟩
  · intro cfg d ops seg hseg
    exact (runSegs_chain cfg ops d).1 seg hseg
  · intro d h
    simp [Doc.restartKernel, h]

/-- Witness for C10 (amended): a concrete two-run segment is strictly
increasing, a concrete failed run with clearing enabled leaves the cell's
count null, and a concrete restart resets the counter. -/
theorem claim_C10_amended_witness :
    List.Chain' (· < ·)
      ((runSegs false sampleDocK [.execOk 0 [], .execOk 0 []]).headI) ∧
    (((sampleDoc3.executeCell 0 true (.failure [] sampleErr)).1.cells[0]?).map
        (fun c => c.executionCount) = some none) ∧
    sampleDocK.restartKernel.executionCount = 0 :=
  ⟨claim_C10_amended.1 false sampleDocK [.execOk 0 [], .execOk 0 []]
      ((runSegs false sampleDocK [.execOk 0 [], .execOk 0 []]).headI)
      (by decide),
   (claim_C10_amended.2.2.1 sampleDoc3 0 [] sampleErr sampleCell (by decide)
      rfl).1,
   claim_C10_amended.2.2.2 sampleDocK rfl⟩

/-! ## Claims C1 and C9: the execute-call state machine -/

/-- One step collects exactly the output the happening delivers. -/
theorem execStep_outputs (t : Nat) (st : ExecCall) (e : WireEvent) :
    (execStep t st e).1.outputs = st.outputs ++ (outputOf e).toList := by
  cases e with
  | fromCallback m =>
    cases m with
    | statusMsg s =>
      by_cases hterm : s = "ok" ∨ s = "error" <;> cases hres : st.resolved <;>
        simp [execStep, handleCallbackMsg, messageToOutput, outputOf, hterm, hres]
    | executionCountMsg n => simp [execStep, handleCallbackMsg, messageToOutput, outputOf]
    | outputMsg o => simp [execStep, handleCallbackMsg, messageToOutput, outputOf]
    | rawStatus s => simp [execStep, handleCallbackMsg, messageToOutput, outputOf]
    | unknown => simp [execStep, handleCallbackMsg, messageToOutput, outputOf]
  | fromStore m =>
    cases m <;> simp [execStep, handleStoreMsg, messageToOutput, outputOf]
  | timerFires =>
    cases hres : st.resolved <;> simp [execStep, handleTimer, outputOf, hres]

/-- One step forwards exactly the output the happening delivers to
`onOutput`. -/
theorem execStep_onOutputs (t : Nat) (st : ExecCall) (e : WireEvent) :
    onOutputEvents (execStep t st e).2 = (outputOf e).toList := by
  cases e with
  | fromCallback m =>
    cases m with
    | statusMsg s =>
      by_cases hterm : s = "ok" ∨ s = "error" <;> cases hres : st.resolved <;>
        simp [execStep, handleCallbackMsg, messageToOutput, outputOf,
          onOutputEvents, hterm, hres]
    | executionCountMsg n =>
      simp [execStep, handleCallbackMsg, messageToOutput, outputOf, onOutputEvents]
    | outputMsg o =>
      simp [execStep, handleCallbackMsg, messageToOutput, outputOf, onOutputEvents]
    | rawStatus s =>
      simp [execStep, handleCallbackMsg, messageToOutput, outputOf, onOutputEvents]
    | unknown =>
      simp [execStep, handleCallbackMsg, messageToOutput, outputOf, onOutputEvents]
  | fromStore m =>
    cases m <;> simp [execStep, handleStoreMsg, messageToOutput, outputOf, onOutputEvents]
  | timerFires =>
    cases hres : st.resolved <;>
      simp [execStep, handleTimer, outputOf, onOutputEvents, hres]

/-- One step settles exactly once, and only by flipping the `resolved` flag. -/
theorem execStep_settles (t : Nat) (st : ExecCall) (e : WireEvent) :
    settleCount (execStep t st e).2
      = if st.resolved = true then 0
        else if (execStep t st e).1.resolved = true then 1 else 0 := by
  cases e with
  | fromCallback m =>
    cases m with
    | statusMsg s =>
      by_cases hterm : s = "ok" ∨ s = "error" <;> cases hres : st.resolved <;>
        simp [execStep, handleCallbackMsg, messageToOutput, settleCount, hterm, hres]
    | executionCountMsg n =>
      cases hres : st.resolved <;>
        simp [execStep, handleCallbackMsg, messageToOutput, settleCount, hres]
    | outputMsg o =>
      cases hres : st.resolved <;>
        simp [execStep, handleCallbackMsg, messageToOutput, settleCount, hres]
    | rawStatus s =>
      cases hres : st.resolved <;>
        simp [execStep, handleCallbackMsg, messageToOutput, settleCount, hres]
    | unknown =>
      cases hres : st.resolved <;>
        simp [execStep, handleCallbackMsg, messageToOutput, settleCount, hres]
  | fromStore m =>
    cases m <;> cases hres : st.resolved <;>
      simp [execStep, handleStoreMsg, messageToOutput, settleCount, hres]
  | timerFires =>
    cases hres : st.resolved <;> simp [execStep, handleTimer, settleCount, hres]

/-- The `resolved` flag never goes back to pending. -/
theorem execStep_resolved_mono (t : Nat) (st : ExecCall) (e : WireEvent)
    (h : st.resolved = true) : (execStep t st e).1.resolved = true := by
  cases e with
  | fromCallback m =>
    cases m with
    | statusMsg s =>
      by_cases hterm : s = "ok" ∨ s = "error" <;>
        simp [execStep, handleCallbackMsg, messageToOutput, hterm, h]
    | executionCountMsg n => simpa [execStep, handleCallbackMsg, messageToOutput] using h
    | outputMsg o => simpa [execStep, handleCallbackMsg, messageToOutput] using h
    | rawStatus s => simpa [execStep, handleCallbackMsg, messageToOutput] using h
    | unknown => simpa [execStep, handleCallbackMsg, messageToOutput] using h
  | fromStore m =>
    cases m <;> simpa [execStep, handleStoreMsg, messageToOutput] using h
  | timerFires => simp [execStep, handleTimer, h]

/-- A non-terminal, non-timer happening leaves the `resolved` flag alone. -/
theorem execStep_unresolved (t : Nat) (st : ExecCall) (e : WireEvent)
    (hterm : isTerminalStatus e = false) (htimer : e ≠ .timerFires) :
    (execStep t st e).1.resolved = st.resolved := by
  cases e with
  | fromCallback m =>
    cases m with
    | statusMsg s =>
      have hterm' : ¬ (s = "ok" ∨ s = "error") := by
        simpa [isTerminalStatus] using hterm
      simp [execStep, handleCallbackMsg, messageToOutput, hterm']
    | executionCountMsg n => simp [execStep, handleCallbackMsg, messageToOutput]
    | outputMsg o => simp [execStep, handleCallbackMsg, messageToOutput]
    | rawStatus s => simp [execStep, handleCallbackMsg, messageToOutput]
    | unknown => simp [execStep, handleCallbackMsg, messageToOutput]
  | fromStore m => cases m <;> simp [execStep, handleStoreMsg, messageToOutput]
  | timerFires => exact absurd rfl htimer

/-- Unfolding one step of `execRunFrom`. -/
theorem execRunFrom_cons (t : Nat) (st : ExecCall) (e : WireEvent)
    (es : List WireEvent) :
    execRunFrom t st (e :: es)
      = ((execRunFrom t (execStep t st e).1 es).1,
         (execStep t st e).2 ++ (execRunFrom t (execStep t st e).1 es).2) := rfl

/-- Outputs delivered by a happening sequence unfold on `cons`. -/
theorem deliveredOutputs_cons (e : WireEvent) (es : List WireEvent) :
    deliveredOutputs (e :: es) = (outputOf e).toList ++ deliveredOutputs es := by
  cases h : outputOf e <;> simp [deliveredOutputs, List.filterMap_cons, h]

/-- Settlements count distributes over appended effect lists. -/
theorem settleCount_append (a b : List ExecEvent) :
    settleCount (a ++ b) = settleCount a + settleCount b := by
  simp [settleCount, List.filter_append]

/-- Embeds `onOutput` forwarding distributes over appended effect lists. -/
theorem onOutputEvents_append (a b : List ExecEvent) :
    onOutputEvents (a ++ b) = onOutputEvents a ++ onOutputEvents b := by
  simp [onOutputEvents]

/-- Once resolved, a whole run stays resolved. -/
theorem execRunFrom_resolved_mono (t : Nat) :
    ∀ (evts : List WireEvent) (st : ExecCall), st.resolved = true →
      (execRunFrom t st evts).1.resolved = true := by
  intro evts
  induction evts with
  | nil => intro st h; exact h
  | cons e es ih =>
    intro st h
    rw [execRunFrom_cons]
    exact ih _ (execStep_resolved_mono t st e h)

/-- A run collects every delivered output, in order, regardless of
settlement. -/
theorem execRunFrom_outputs (t : Nat) :
    ∀ (evts : List WireEvent) (st : ExecCall),
      (execRunFrom t st evts).1.outputs = st.outputs ++ deliveredOutputs evts := by
  intro evts
  induction evts with
  | nil => intro st; simp [execRunFrom, deliveredOutputs]
  | cons e es ih =>
    intro st
    rw [execRunFrom_cons]
    show (execRunFrom t (execStep t st e).1 es).1.outputs = _
    rw [ih (execStep t st e).1, execStep_outputs, deliveredOutputs_cons,
      List.append_assoc]

/-- A run forwards every delivered output to `onOutput`, in order. -/
theorem execRunFrom_onOutputs (t : Nat) :
    ∀ (evts : List WireEvent) (st : ExecCall),
      onOutputEvents (execRunFrom t st evts).2 = deliveredOutputs evts := by
  intro evts
  induction evts with
  | nil => intro st; simp [execRunFrom, deliveredOutputs, onOutputEvents]
  | cons e es ih =>
    intro st
    rw [execRunFrom_cons]
    show onOutputEvents ((execStep t st e).2 ++ _) = _
    rw [onOutputEvents_append, execStep_onOutputs, ih (execStep t st e).1,
      deliveredOutputs_cons]

/-- A run settles exactly when its final state is resolved, and then exactly
once. -/
theorem execRunFrom_settles (t : Nat) :
    ∀ (evts : List WireEvent) (st : ExecCall),
      settleCount (execRunFrom t st evts).2
        = if st.resolved = true then 0
          else if (execRunFrom t st evts).1.resolved = true then 1 else 0 := by
  intro evts
  induction evts with
  | nil =>
    intro st
    cases h : st.resolved <;> simp [execRunFrom, settleCount, h]
  | cons e es ih =>
    intro st
    rw [execRunFrom_cons]
    show settleCount ((execStep t st e).2 ++ _) = _
    rw [settleCount_append, execStep_settles, ih (execStep t st e).1]
    cases hres : st.resolved with
    | true =>
      have h1 : (execStep t st e).1.resolved = true := execStep_resolved_mono t st e hres
      have h2 : (execRunFrom t (execStep t st e).1 es).1.resolved = true :=
        execRunFrom_resolved_mono t es _ h1
      simp [hres, h1, h2]
    | false =>
      cases hres' : (execStep t st e).1.resolved with
      | true =>
        have h2 : (execRunFrom t (execStep t st e).1 es).1.resolved = true :=
          execRunFrom_resolved_mono t es _ hres'
        simp [hres, hres', h2]
      | false => simp [hres, hres']

/-- A whole `execute` call settles at most once. -/
theorem settleCount_execRun_le_one (t : Nat) (events : List WireEvent) :
    settleCount (execRun t events).2 ≤ 1 := by
  unfold execRun
  rw [execRunFrom_settles]
  have : ({} : ExecCall).resolved = false := rfl
  rw [this]
  simp only [Bool.false_eq_true, if_false]
  split <;> simp

/-- A resolution effect in the list means at least one settlement. -/
theorem settleCount_pos_of_resolvedWith {evs : List ExecEvent} {s : String}
    (h : ExecEvent.resolvedWith s ∈ evs) : 1 ≤ settleCount evs := by
  unfold settleCount
  exact List.length_pos_of_mem (List.mem_filter.mpr ⟨h, rfl⟩)

/-- A timeout rejection effect in the list means at least one settlement. -/
theorem settleCount_pos_of_rejected {evs : List ExecEvent} {ms : Nat}
    (h : ExecEvent.rejectedTimeout ms ∈ evs) : 1 ≤ settleCount evs := by
  unfold settleCount
  exact List.length_pos_of_mem (List.mem_filter.mpr ⟨h, rfl⟩)

/-- Without terminal statuses or a timer firing, a pending call stays
pending. -/
theorem execRunFrom_unresolved (t : Nat) :
    ∀ (evts : List WireEvent) (st : ExecCall), st.resolved = false →
      (∀ e ∈ evts, isTerminalStatus e = false) →
      WireEvent.timerFires ∉ evts →
      (execRunFrom t st evts).1.resolved = false := by
  intro evts
  induction evts with
  | nil => intro st h _ _; exact h
  | cons e es ih =>
    intro st hres hterm htimer
    rw [execRunFrom_cons]
    have hne : e ≠ .timerFires := fun he => htimer (he ▸ List.mem_cons_self e es)
    have hst' : (execStep t st e).1.resolved = false := by
      rw [execStep_unresolved t st e (hterm e (List.mem_cons_self e es)) hne, hres]
    exact ih _ hst' (fun x hx => hterm x (List.mem_cons_of_mem _ hx))
      (fun hx => htimer (List.mem_cons_of_mem _ hx))

/-- The first terminal status of a timer-free run produces the resolution
effect with that status. -/
theorem execRunFrom_first_terminal (t : Nat) :
    ∀ (evts : List WireEvent) (st : ExecCall) (s : String),
      st.resolved = false → WireEvent.timerFires ∉ evts →
      firstTerminal evts = some s →
      ExecEvent.resolvedWith s ∈ (execRunFrom t st evts).2 := by
  intro evts
  induction evts with
  | nil => intro st s _ _ hft; simp [firstTerminal] at hft
  | cons e es ih =>
    intro st s hres htimer hft
    have htimer' : WireEvent.timerFires ∉ es :=
      fun hx => htimer (List.mem_cons_of_mem _ hx)
    have hne : e ≠ .timerFires := fun he => htimer (he ▸ List.mem_cons_self e es)
    rw [execRunFrom_cons]
    rw [List.mem_append]
    cases e with
    | fromCallback m =>
      cases m with
      | statusMsg s0 =>
        by_cases hterm : s0 = "ok" ∨ s0 = "error"
        · simp only [firstTerminal, hterm, if_true, Option.some.injEq] at hft
          subst hft
          left
          simp [execStep, handleCallbackMsg, messageToOutput, hterm, hres]
        · simp only [firstTerminal, hterm, if_false] at hft
          have hst' : (execStep t st (.fromCallback (.statusMsg s0))).1.resolved = false := by
            rw [execStep_unresolved _ _ _ (by simpa [isTerminalStatus] using hterm)
              hne, hres]
          exact Or.inr (ih _ s hst' htimer' hft)
        | executionCountMsg n =>
          simp only [firstTerminal] at hft
          have hst' : (execStep t st (.fromCallback (.executionCountMsg n))).1.resolved
              = false := by
            rw [execStep_unresolved _ _ _ (by rfl) hne, hres]
          exact Or.inr (ih _ s hst' htimer' hft)
        | outputMsg o =>
          simp only [firstTerminal] at hft
          have hst' : (execStep t st (.fromCallback (.outputMsg o))).1.resolved
              = false := by
            rw [execStep_unresolved _ _ _ (by rfl) hne, hres]
          exact Or.inr (ih _ s hst' htimer' hft)
        | rawStatus s1 =>
          simp only [firstTerminal] at hft
          have hst' : (execStep t st (.fromCallback (.rawStatus s1))).1.resolved
              = false := by
            rw [execStep_unresolved _ _ _ (by rfl) hne, hres]
          exact Or.inr (ih _ s hst' htimer' hft)
        | unknown =>
          simp only [firstTerminal] at hft
          have hst' : (execStep t st (.fromCallback .unknown)).1.resolved = false := by
            rw [execStep_unresolved _ _ _ (by rfl) hne, hres]
          exact Or.inr (ih _ s hst' htimer' hft)
    | fromStore m =>
      simp only [firstTerminal] at hft
      have hst' : (execStep t st (.fromStore m)).1.resolved = false := by
        rw [execStep_unresolved _ _ _ (by rfl) hne, hres]
      exact Or.inr (ih _ s hst' htimer' hft)
    | timerFires => exact absurd (List.mem_cons_self _ _) htimer

/-- A firing timer on a pending, terminal-status-free call produces the
timeout rejection effect. -/
theorem execRunFrom_timer_rejects (t : Nat) :
    ∀ (evts : List WireEvent) (st : ExecCall), st.resolved = false →
      (∀ e ∈ evts, isTerminalStatus e = false) →
      WireEvent.timerFires ∈ evts →
      ExecEvent.rejectedTimeout t ∈ (execRunFrom t st evts).2 := by
  intro evts
  induction evts with
  | nil => intro st _ _ h; cases h
  | cons e es ih =>
    intro st hres hterm htimer
    rw [execRunFrom_cons, List.mem_append]
    by_cases he : e = .timerFires
    · subst he
      left
      simp [execStep, handleTimer, hres]
    · have hmem : WireEvent.timerFires ∈ es := by
        rcases List.mem_cons.mp htimer with h | h
        · exact absurd h.symm he
        · exact h
      have hst' : (execStep t st e).1.resolved = false := by
        rw [execStep_unresolved _ _ _ (hterm e (List.mem_cons_self e es)) he, hres]
      exact Or.inr (ih _ hst' (fun x hx => hterm x (List.mem_cons_of_mem _ hx)) hmem)

/-- C1: an `execute` call settles at most once — the first terminal status
(absent a timeout) resolves it exactly once with that status — while every
output fragment delivered on either sink, before or after settlement, is
appended to the collected outputs and forwarded to `callbacks.onOutput`,
never dropped. -/
theorem claim_C1_exec_settles_once :
    (∀ (t : Nat) (events : List WireEvent),
        settleCount (execRun t events).2 ≤ 1) ∧
    (∀ (t : Nat) (events : List WireEvent),
        (execRun t events).1.outputs = deliveredOutputs events) ∧
    (∀ (t : Nat) (events : List WireEvent),
        onOutputEvents (execRun t events).2 = deliveredOutputs events) ∧
    (∀ (t : Nat) (events : List WireEvent) (s : String),
        WireEvent.timerFires ∉ events → firstTerminal events = some s →
        ExecEvent.resolvedWith s ∈ (execRun t events).2 ∧
        settleCount (execRun t events).2 = 1) := by
  refine ⟨settleCount_execRun_le_one, ?_, ?_, ?_⟩
  · intro t events
    unfold execRun
    rw [execRunFrom_outputs]
    rfl
  · intro t events
    unfold execRun
    rw [execRunFrom_onOutputs]
  · intro t events s htimer hft
    have hmem : ExecEvent.resolvedWith s ∈ (execRun t events).2 :=
      execRunFrom_first_terminal t events {} s rfl htimer hft
    exact ⟨hmem, Nat.le_antisymm (settleCount_execRun_le_one t events)
      (settleCount_pos_of_resolvedWith hmem)⟩

/-- Witness for C1: a concrete run with a terminal status followed by an
orphan output on the store sink. -/
theorem claim_C1_exec_settles_once_witness :
    ExecEvent.resolvedWith "ok" ∈ (execRun 300000
        [.fromCallback (.statusMsg "ok"),
         .fromStore (.outputMsg (.stream "stdout" "late"))]).2 ∧
    settleCount (execRun 300000
        [.fromCallback (.statusMsg "ok"),
         .fromStore (.outputMsg (.stream "stdout" "late"))]).2 = 1 :=
  claim_C1_exec_settles_once.2.2.2 300000
    [.fromCallback (.statusMsg "ok"),
     .fromStore (.outputMsg (.stream "stdout" "late"))] "ok"
    (by decide) (by decide)

/-- C9: with a positive timeout and no terminal status ever arriving, a
firing timer rejects the call with the distinct timeout error, exactly once —
later messages are inert, never settling the call again; with timeout 0 no
timer is armed, so such a call never settles (waits unboundedly). -/
theorem claim_C9_timeout :
    (∀ (t : Nat) (events : List WireEvent),
        0 < t → (∀ e ∈ events, isTerminalStatus e = false) →
        WireEvent.timerFires ∈ events →
        ExecEvent.rejectedTimeout t ∈ (execRun t events).2 ∧
        settleCount (execRun t events).2 = 1) ∧
    (∀ events : List WireEvent,
        WireEvent.timerFires ∉ events →
        (∀ e ∈ events, isTerminalStatus e = false) →
        (execRun 0 events).1.resolved = false ∧
        settleCount (execRun 0 events).2 = 0) := by
  constructor
  · intro t events _ hterm htimer
    have hmem : ExecEvent.rejectedTimeout t ∈ (execRun t events).2 :=
      execRunFrom_timer_rejects t events {} rfl hterm htimer
    exact ⟨hmem, Nat.le_antisymm (settleCount_execRun_le_one t events)
      (settleCount_pos_of_rejected hmem)⟩
  · intro events htimer hterm
    have hun : (execRun 0 events).1.resolved = false :=
      execRunFrom_unresolved 0 events {} rfl hterm htimer
    refine ⟨hun, ?_⟩
    unfold execRun at hun ⊢
    rw [execRunFrom_settles]
    have : ({} : ExecCall).resolved = false := rfl
    rw [this, hun]
    simp

/-- Witness for C9: a concrete timer firing on a never-responding call, with
a late inert output message. -/
theorem claim_C9_timeout_witness :
    ExecEvent.rejectedTimeout 10 ∈ (execRun 10
        [WireEvent.timerFires,
         .fromCallback (.outputMsg (.stream "stdout" "x"))]).2 ∧
    settleCount (execRun 10
        [WireEvent.timerFires,
         .fromCallback (.outputMsg (.stream "stdout" "x"))]).2 = 1 :=
  claim_C9_timeout.1 10
    [WireEvent.timerFires, .fromCallback (.outputMsg (.stream "stdout" "x"))]
    (by decide) (by decide) (by decide)

end JupyterNext
